import Mathlib

/-!
Verification of the board module (`board.c` / `board.h`) and of the minimax
search with alpha-beta pruning (`minimax.c`) of a Noughts and Crosses
program.

The board is a square grid of `size * size` cells stored row-major in a
one-dimensional character array; cells hold one of the three characters
`NOUGHT` (`'O'`), `CROSS` (`'X'`) and `EMPTY` (`' '`).  The search explores
the game tree by mutating the board in place (make a move, score it
recursively, unmake the move), so the search procedures are embedded here
as state-passing functions returning both the computed score and the final
board, with an explicit fuel argument standing for the recursion budget
(the C recursion is bounded by the number of empty cells; any fuel of at
least that number produces the behaviour of the C code).  The two mutually
recursive procedures are packaged as one fuel-indexed pair of functions so
that every definition is structurally recursive and evaluates inside the
kernel.
-/

namespace NoughtsCrosses

/-- Symbol of the first player (`board.h`: `static const char NOUGHT = 'O'`). -/
def NOUGHT : Char := 'O'

/-- Symbol of the second player (`board.h`: `static const char CROSS = 'X'`). -/
def CROSS : Char := 'X'

/-- Symbol of an empty cell, also used to unmake moves
(`board.h`: `static const char EMPTY = ' '`). -/
def EMPTY : Char := ' '

/-- The board (`board.c`, `struct board_s`): the square side length and the
row-major one-dimensional sequence of cells. -/
structure Board where
  size : Nat
  cells : List Char
  deriving Repr, DecidableEq

/-- Cell read `board->cells[cell]`.  An out-of-range read (undefined
behaviour in C) is modelled as reading `EMPTY`. -/
def getCellD (b : Board) (cell : Nat) : Char :=
  b.cells.getD cell EMPTY

/-- `getSize` (`board.c` lines 206-209). -/
def getSize (b : Board) : Nat :=
  b.size

/-- `isValidMove` (`board.c` lines 185-191): the cell must be in range
(`cell >= 0` is automatic for the unsigned cell index) and either the
symbol is `EMPTY` or the cell currently holds `EMPTY`. -/
def isValidMove (b : Board) (cell : Nat) (symbol : Char) : Bool :=
  decide (cell < b.size * b.size) && (symbol == EMPTY || getCellD b cell == EMPTY)

/-- `getCell` (`board.c` lines 225-230). -/
def getCell (b : Board) (cell : Nat) : Char :=
  getCellD b cell

/-- `setCell` (`board.c` lines 248-255): `board->cells[cell] = symbol`.
An out-of-range write (undefined behaviour in C) is modelled as a no-op,
which is the behaviour of `List.set`. -/
def setCell (b : Board) (cell : Nat) (symbol : Char) : Board :=
  { b with cells := b.cells.set cell symbol }

/-- `resetBoard` (`board.c` lines 84-92): every cell index in
`[0, size*size)` is written `EMPTY`. -/
def resetBoard (b : Board) : Board :=
  (List.range (b.size * b.size)).foldl (fun acc c => setCell acc c EMPTY) b

/-- `initBoard` (`board.c` lines 42-58).  The C code allocates a cell array
of only `size` characters (`board.c` line 52: `malloc(sizeof(char) * size)`)
and then calls `resetBoard`, which writes `size * size` cells; the writes
beyond the allocation (a heap overflow, undefined behaviour in C) are
modelled as no-ops, so the model keeps the allocated length `size`. -/
def initBoard (size : Nat) : Board :=
  resetBoard { size := size, cells := List.replicate size EMPTY }

/-- `isWinRow` (`board.c` lines 278-292): all cells
`board->cells[(board->size * row) + i]` for `i < size` equal `symbol`. -/
def isWinRow (b : Board) (row : Nat) (symbol : Char) : Bool :=
  (List.range b.size).all (fun i => getCellD b (b.size * row + i) == symbol)

/-- `isWinCol` (`board.c` lines 311-325): all cells
`board->cells[column + (board->size * i)]` for `i < size` equal `symbol`. -/
def isWinCol (b : Board) (column : Nat) (symbol : Char) : Bool :=
  (List.range b.size).all (fun i => getCellD b (column + b.size * i) == symbol)

/-- `isWinForwardDiag` (`board.c` lines 341-354): all cells
`board->cells[(board->size * i) + i]` for `i < size` equal `symbol`. -/
def isWinForwardDiag (b : Board) (symbol : Char) : Bool :=
  (List.range b.size).all (fun i => getCellD b (b.size * i + i) == symbol)

/-- `isWinBackwardDiag` (`board.c` lines 370-383): all cells
`board->cells[(board->size * (board->size - 1 - i)) + i]` for `i < size`
equal `symbol`. -/
def isWinBackwardDiag (b : Board) (symbol : Char) : Bool :=
  (List.range b.size).all (fun i => getCellD b (b.size * (b.size - 1 - i) + i) == symbol)

/-- `isWin` (`board.c` lines 109-130): both diagonals are checked first,
then every row and column. -/
def isWin (b : Board) (symbol : Char) : Bool :=
  (isWinForwardDiag b symbol || isWinBackwardDiag b symbol)
    || (List.range b.size).any (fun i => isWinRow b i symbol || isWinCol b i symbol)

/-- `isDraw` (`board.c` lines 145-165): no draw if either symbol has a win,
otherwise a draw exactly when no cell is `EMPTY`. -/
def isDraw (b : Board) : Bool :=
  if isWin b NOUGHT || isWin b CROSS then false
  else (List.range (b.size * b.size)).all (fun cell => !(getCellD b cell == EMPTY))

/-- Base score of a win (`minimax.c` line 7: `SCORE_WIN = INT8_MAX`). -/
def SCORE_WIN : Int := 127

/-- Base score of a loss (`minimax.c` line 8: `SCORE_LOSE = INT8_MIN`). -/
def SCORE_LOSE : Int := -128

/-- Score of a draw (`minimax.c` line 9: `SCORE_DRAW = 0`). -/
def SCORE_DRAW : Int := 0

/-- The move-enumeration loop of `minimise` (`minimax.c` lines 142-165),
abstracted over the recursive call `child` (which already carries the
symbols and the incremented depth): make each valid opponent move, score
it with `child`, unmake it, lower `beta`, and prune - returning `alpha` -
as soon as `beta <= alpha`; when the loop ends, return `beta`.  The board
is threaded through because the C code mutates it in place. -/
def minimiseLoop (child : Board → Int → Int → Int × Board) (sOther : Char)
    (alpha : Int) : Int → Board → List Nat → Int × Board
  | beta, b, [] => (beta, b)
  | beta, b, c :: rest =>
    if isValidMove b c sOther then
      let p := child (setCell b c sOther) alpha beta
      let b2 := setCell p.2 c EMPTY
      let beta2 := min beta p.1
      if beta2 ≤ alpha then (alpha, b2)
      else minimiseLoop child sOther alpha beta2 b2 rest
    else minimiseLoop child sOther alpha beta b rest

/-- The move-enumeration loop of `maximise` (`minimax.c` lines 219-242),
abstracted over the recursive call: make each valid self move, score it,
unmake it, raise `alpha`, and prune - returning `beta` - as soon as
`alpha >= beta`; when the loop ends, return `alpha`. -/
def maximiseLoop (child : Board → Int → Int → Int × Board) (sSelf : Char)
    (beta : Int) : Int → Board → List Nat → Int × Board
  | alpha, b, [] => (alpha, b)
  | alpha, b, c :: rest =>
    if isValidMove b c sSelf then
      let p := child (setCell b c sSelf) alpha beta
      let b2 := setCell p.2 c EMPTY
      let alpha2 := max alpha p.1
      if beta ≤ alpha2 then (beta, b2)
      else maximiseLoop child sSelf beta alpha2 b2 rest
    else maximiseLoop child sSelf beta alpha b rest

/-- The two mutually recursive search procedures `minimise` (`minimax.c`
lines 120-168, first component) and `maximise` (`minimax.c` lines 197-245,
second component), indexed by fuel.  Each first checks the terminal
conditions it tests - opponent win then draw for `minimise`, self win
then draw for `maximise` - and otherwise enumerates moves in ascending
cell order.  The fuel-exhausted step returns the incoming bound (`beta`
for `minimise`, `alpha` for `maximise`); with fuel at least the number of
empty cells it is never reached. -/
def searchF (sSelf sOther : Char) : Nat →
    ((Board → Nat → Int → Int → Int × Board) × (Board → Nat → Int → Int → Int × Board))
  | 0 => (fun b _ _ beta => (beta, b), fun b _ alpha _ => (alpha, b))
  | f + 1 =>
    let prev := searchF sSelf sOther f
    (fun b depth alpha beta =>
      if isWin b sOther then (SCORE_LOSE + (depth : Int), b)
      else if isDraw b then (SCORE_DRAW, b)
      else minimiseLoop (fun b2 a2 b3 => prev.2 b2 (depth + 1) a2 b3) sOther alpha beta b
        (List.range (getSize b * getSize b)),
     fun b depth alpha beta =>
      if isWin b sSelf then (SCORE_WIN - (depth : Int), b)
      else if isDraw b then (SCORE_DRAW, b)
      else maximiseLoop (fun b2 a2 b3 => prev.1 b2 (depth + 1) a2 b3) sSelf beta alpha b
        (List.range (getSize b * getSize b)))

/-- `minimise` (`minimax.c` lines 120-168) at a given fuel. -/
def minimiseF (fuel : Nat) (b : Board) (sSelf sOther : Char) (depth : Nat)
    (alpha beta : Int) : Int × Board :=
  (searchF sSelf sOther fuel).1 b depth alpha beta

/-- `maximise` (`minimax.c` lines 197-245) at a given fuel. -/
def maximiseF (fuel : Nat) (b : Board) (sSelf sOther : Char) (depth : Nat)
    (alpha beta : Int) : Int × Board :=
  (searchF sSelf sOther fuel).2 b depth alpha beta

/-- Result of `getBestMove` (`minimax.c` lines 51-87): the final `alpha`,
the recorded best cell, and the final board.  `bestMove` is `none` exactly
when no candidate ever improved on the initial `alpha = SCORE_LOSE`; in
that case the C code fails its assertion `assert(alpha != SCORE_LOSE)`
and `bestMove` would be returned uninitialised. -/
structure BestMoveResult where
  alpha : Int
  bestMove : Option Nat
  board : Board
  deriving Repr, DecidableEq

/-- The candidate loop of `getBestMove` (`minimax.c` lines 65-81): for each
valid self cell, make the move, score it with `minimise` at depth 1 and
window `(alpha, SCORE_WIN)`, unmake the move, and on a strict improvement
`score > alpha` record the cell and raise `alpha`. -/
def getBestMoveGo (b : Board) (sSelf sOther : Char) (alpha : Int)
    (best : Option Nat) : List Nat → BestMoveResult
  | [] => ⟨alpha, best, b⟩
  | c :: rest =>
    if isValidMove b c sSelf then
      let p := minimiseF (getSize b * getSize b) (setCell b c sSelf) sSelf sOther 1
        alpha SCORE_WIN
      let b2 := setCell p.2 c EMPTY
      if alpha < p.1 then getBestMoveGo b2 sSelf sOther p.1 (some c) rest
      else getBestMoveGo b2 sSelf sOther alpha best rest
    else getBestMoveGo b sSelf sOther alpha best rest

/-- `getBestMove` (`minimax.c` lines 51-87): derive the opponent symbol,
start with the widest window `alpha = SCORE_LOSE`, `beta = SCORE_WIN`, and
run the candidate loop over all cells in ascending order.  The fuel given
to the recursion is `size * size`, which exceeds the number of plies any
branch can make. -/
def getBestMove (b : Board) (sSelf : Char) : BestMoveResult :=
  let sOther := if sSelf == NOUGHT then CROSS else NOUGHT
  getBestMoveGo b sSelf sOther SCORE_LOSE none (List.range (getSize b * getSize b))

/-- Minimum fold over the scores of the valid moves of `sym`, starting at
`SCORE_WIN` (the widest bound the minimising step can return); the
unpruned counterpart of `minimiseLoop`. -/
def pureMinLoop (child : Board → Int) (sym : Char) (b : Board) : List Nat → Int
  | [] => SCORE_WIN
  | c :: rest =>
    if isValidMove b c sym then
      min (child (setCell b c sym)) (pureMinLoop child sym b rest)
    else pureMinLoop child sym b rest

/-- Maximum fold over the scores of the valid moves of `sym`, starting at
`SCORE_LOSE`; the unpruned counterpart of `maximiseLoop`. -/
def pureMaxLoop (child : Board → Int) (sym : Char) (b : Board) : List Nat → Int
  | [] => SCORE_LOSE
  | c :: rest =>
    if isValidMove b c sym then
      max (child (setCell b c sym)) (pureMaxLoop child sym b rest)
    else pureMaxLoop child sym b rest

/-- The unpruned minimax value of the code's own recursion: `searchF` with
the alpha-beta window removed and plain minimum/maximum folds over the
children.  The terminal tests are exactly the ones the code performs:
opponent win then draw in the minimising step (first component), self win
then draw in the maximising step (second component). -/
def pureF (sSelf sOther : Char) : Nat → ((Board → Nat → Int) × (Board → Nat → Int))
  | 0 => (fun _ _ => SCORE_WIN, fun _ _ => SCORE_LOSE)
  | f + 1 =>
    let prev := pureF sSelf sOther f
    (fun b depth =>
      if isWin b sOther then SCORE_LOSE + (depth : Int)
      else if isDraw b then SCORE_DRAW
      else pureMinLoop (fun b2 => prev.2 b2 (depth + 1)) sOther b
        (List.range (getSize b * getSize b)),
     fun b depth =>
      if isWin b sSelf then SCORE_WIN - (depth : Int)
      else if isDraw b then SCORE_DRAW
      else pureMaxLoop (fun b2 => prev.1 b2 (depth + 1)) sSelf b
        (List.range (getSize b * getSize b)))

/-- Unpruned minimising value of the code's recursion. -/
def pureMin (fuel : Nat) (b : Board) (sSelf sOther : Char) (depth : Nat) : Int :=
  (pureF sSelf sOther fuel).1 b depth

/-- Unpruned maximising value of the code's recursion. -/
def pureMax (fuel : Nat) (b : Board) (sSelf sOther : Char) (depth : Nat) : Int :=
  (pureF sSelf sOther fuel).2 b depth

/-- Candidate fold of the unpruned reference: strict-improvement tracking
over the `pureMin` child values, keeping the earliest cell attaining the
running maximum, exactly as the top level of `getBestMove` does with its
own alpha. -/
def pureBestGo (b : Board) (sSelf sOther : Char) (alpha : Int)
    (best : Option Nat) : List Nat → Int × Option Nat
  | [] => (alpha, best)
  | c :: rest =>
    if isValidMove b c sSelf then
      let v := pureMin (getSize b * getSize b) (setCell b c sSelf) sSelf sOther 1
      if alpha < v then pureBestGo b sSelf sOther v (some c) rest
      else pureBestGo b sSelf sOther alpha best rest
    else pureBestGo b sSelf sOther alpha best rest

/-- The exhaustive unpruned counterpart of `getBestMove` over the code's
own recursion: the lowest-index valid cell whose `pureMin` value is
maximal, or `none` when no valid cell scores above `SCORE_LOSE`. -/
def pureBestMove (b : Board) (sSelf : Char) : Int × Option Nat :=
  let sOther := if sSelf == NOUGHT then CROSS else NOUGHT
  pureBestGo b sSelf sOther SCORE_LOSE none (List.range (getSize b * getSize b))

/-- The scoring recursion exactly as the specification states it: each
step first checks all three terminal conditions - a position where
`symbolSelf` has won scores `SCORE_WIN - depth`, one where the opponent
has won scores `SCORE_LOSE + depth`, a drawn full position scores `0` -
and only then enumerates the moves of the side to play, the opponent
minimising over them (first component) and self maximising (second
component).  Unpruned. -/
def specF (sSelf sOther : Char) : Nat → ((Board → Nat → Int) × (Board → Nat → Int))
  | 0 => (fun _ _ => SCORE_WIN, fun _ _ => SCORE_LOSE)
  | f + 1 =>
    let prev := specF sSelf sOther f
    (fun b depth =>
      if isWin b sSelf then SCORE_WIN - (depth : Int)
      else if isWin b sOther then SCORE_LOSE + (depth : Int)
      else if isDraw b then SCORE_DRAW
      else pureMinLoop (fun b2 => prev.2 b2 (depth + 1)) sOther b
        (List.range (getSize b * getSize b)),
     fun b depth =>
      if isWin b sSelf then SCORE_WIN - (depth : Int)
      else if isWin b sOther then SCORE_LOSE + (depth : Int)
      else if isDraw b then SCORE_DRAW
      else pureMaxLoop (fun b2 => prev.1 b2 (depth + 1)) sSelf b
        (List.range (getSize b * getSize b)))

/-- The specification's minimising score of a position. -/
def specMinimise (fuel : Nat) (b : Board) (sSelf sOther : Char) (depth : Nat) : Int :=
  (specF sSelf sOther fuel).1 b depth

/-- The specification's best move: the top level enumerates every valid
cell in ascending index order, scores each candidate with the minimising
step at depth 1, tracks the best score seen so far, records each strict
improvement, and ties keep the earliest candidate. -/
def specBestMove (b : Board) (sSelf : Char) : Option Nat :=
  let sOther := if sSelf == NOUGHT then CROSS else NOUGHT
  (List.range (getSize b * getSize b)).foldl
    (fun st c =>
      if isValidMove b c sSelf then
        let v := specMinimise (getSize b * getSize b) (setCell b c sSelf) sSelf sOther 1
        if st.1 < v then (v, some c) else st
      else st)
    (SCORE_LOSE, (none : Option Nat)) |>.2

/-- The cell-enumeration loops of `resetBoard` (`board.c` line 88),
`isDraw` (`board.c` line 156), `getBestMove` (`minimax.c` line 65),
`minimise` (`minimax.c` line 142) and `maximise` (`minimax.c` line 219)
all have the shape `for (uint8_t cell = 0; cell < size * size; cell += 1)`:
the counter is an 8-bit unsigned integer, so its successive values are
`n % 256`, while the bound `size * size` is computed in `int`.  The loop
terminates exactly when the counter eventually reaches the bound. -/
def cellLoopTerminates (size : Nat) : Prop :=
  ∃ n : Nat, ¬ (n % 256 < size * size)

/-! ### Concrete boards used as test positions

Cells are listed row-major for the 3x3 instance: indices 0 1 2 / 3 4 5 /
6 7 8. -/

/-- `CROSS` has already completed row 0; `NOUGHT` holds cells 3 and 4;
cells 5..8 are empty.  A position in which self has just won, as `minimise`
sees it directly after the winning self move. -/
def boardSelfWinRow : Board :=
  ⟨3, ['X', 'X', 'X', 'O', 'O', ' ', ' ', ' ', ' ']⟩

/-- `CROSS` has already completed column 0; `NOUGHT` holds cells 1 and 4;
cells 2, 5, 7, 8 are empty. -/
def boardSelfWinCol : Board :=
  ⟨3, ['X', 'O', ' ', 'X', 'O', ' ', 'X', ' ', ' ']⟩

/-- `NOUGHT` has already completed row 0. -/
def boardNoughtWin : Board :=
  ⟨3, ['O', 'O', 'O', 'X', 'X', ' ', ' ', ' ', ' ']⟩

/-- A full board on which neither symbol has a line: a drawn position. -/
def boardFullDraw : Board :=
  ⟨3, ['O', 'X', 'O', 'X', 'O', 'X', 'X', 'O', 'X']⟩

/-- No line is complete; `NOUGHT` (cells 0, 2, 3, 4) threatens both row 1
(cell 5) and column 0 (cell 6), so `CROSS` to move loses either way and
the depth tie-break decides which losing move is picked. -/
def boardDoubleThreat : Board :=
  ⟨3, ['O', 'X', 'O', 'O', 'O', ' ', ' ', ' ', ' ']⟩

/-- Cells 0 and 1 are empty, `CROSS` holds 2, 5, 6 and `NOUGHT` holds
3, 4, 7, 8.  Whichever of the two empty cells `CROSS` plays, `NOUGHT`
answers on the other and completes a line (column 1 through cell 1, or
the forward diagonal through cell 0) while filling the board, a win that
neither `minimise` nor `maximise` ever tests for.  The position is
reachable by legal play (`NOUGHT` 3, `CROSS` 2, `NOUGHT` 4, `CROSS` 5,
`NOUGHT` 7, `CROSS` 6, `NOUGHT` 8, with no earlier win). -/
def boardAssertFail : Board :=
  ⟨3, [' ', ' ', 'X', 'O', 'O', 'X', 'X', 'O', 'O']⟩

/-! ### Unfolding equations for the search pair -/

/-- `minimise` at fuel 0 returns the incoming `beta`. -/
lemma minimiseF_zero (b : Board) (sSelf sOther : Char) (depth : Nat)
    (alpha beta : Int) : minimiseF 0 b sSelf sOther depth alpha beta = (beta, b) :=
  rfl

/-- One step of `minimise`. -/
lemma minimiseF_succ (f : Nat) (b : Board) (sSelf sOther : Char) (depth : Nat)
    (alpha beta : Int) :
    minimiseF (f + 1) b sSelf sOther depth alpha beta
      = if isWin b sOther then (SCORE_LOSE + (depth : Int), b)
        else if isDraw b then (SCORE_DRAW, b)
        else minimiseLoop (fun b2 a2 b3 => maximiseF f b2 sSelf sOther (depth + 1) a2 b3)
          sOther alpha beta b (List.range (getSize b * getSize b)) :=
  rfl

/-- `maximise` at fuel 0 returns the incoming `alpha`. -/
lemma maximiseF_zero (b : Board) (sSelf sOther : Char) (depth : Nat)
    (alpha beta : Int) : maximiseF 0 b sSelf sOther depth alpha beta = (alpha, b) :=
  rfl

/-- One step of `maximise`. -/
lemma maximiseF_succ (f : Nat) (b : Board) (sSelf sOther : Char) (depth : Nat)
    (alpha beta : Int) :
    maximiseF (f + 1) b sSelf sOther depth alpha beta
      = if isWin b sSelf then (SCORE_WIN - (depth : Int), b)
        else if isDraw b then (SCORE_DRAW, b)
        else maximiseLoop (fun b2 a2 b3 => minimiseF f b2 sSelf sOther (depth + 1) a2 b3)
          sSelf beta alpha b (List.range (getSize b * getSize b)) :=
  rfl

/-- `pureMin` at fuel 0. -/
lemma pureMin_zero (b : Board) (sSelf sOther : Char) (depth : Nat) :
    pureMin 0 b sSelf sOther depth = SCORE_WIN :=
  rfl

/-- One step of `pureMin`. -/
lemma pureMin_succ (f : Nat) (b : Board) (sSelf sOther : Char) (depth : Nat) :
    pureMin (f + 1) b sSelf sOther depth
      = if isWin b sOther then SCORE_LOSE + (depth : Int)
        else if isDraw b then SCORE_DRAW
        else pureMinLoop (fun b2 => pureMax f b2 sSelf sOther (depth + 1)) sOther b
          (List.range (getSize b * getSize b)) :=
  rfl

/-- `pureMax` at fuel 0. -/
lemma pureMax_zero (b : Board) (sSelf sOther : Char) (depth : Nat) :
    pureMax 0 b sSelf sOther depth = SCORE_LOSE :=
  rfl

/-- One step of `pureMax`. -/
lemma pureMax_succ (f : Nat) (b : Board) (sSelf sOther : Char) (depth : Nat) :
    pureMax (f + 1) b sSelf sOther depth
      = if isWin b sSelf then SCORE_WIN - (depth : Int)
        else if isDraw b then SCORE_DRAW
        else pureMaxLoop (fun b2 => pureMin f b2 sSelf sOther (depth + 1)) sSelf b
          (List.range (getSize b * getSize b)) :=
  rfl

/-! ### Make/unmake round trips -/

/-- Setting a cell to the value it already holds leaves the list unchanged. -/
lemma List.set_self_of_getElem {l : List Char} {n : Nat} {a : Char}
    (h : n < l.length) (he : l[n] = a) : l.set n a = l := by
  apply List.ext_getElem?
  intro m
  rw [List.getElem?_set]
  split
  · next hnm => subst hnm; simp [List.getElem?_eq_getElem h, he]
  · rfl

/-- A valid move of a non-empty symbol followed by clearing the same cell
restores the board exactly (the make/unmake discipline of the search). -/
lemma setCell_unmake {b : Board} {c : Nat} {s : Char} (hs : s ≠ EMPTY)
    (hv : isValidMove b c s = true) :
    setCell (setCell b c s) c EMPTY = b := by
  cases b with
  | mk size cells =>
    simp only [setCell]
    congr 1
    rw [List.set_set]
    by_cases hc : c < cells.length
    · have hcell : cells[c] = EMPTY := by
        simp only [isValidMove, getCellD, Bool.and_eq_true, Bool.or_eq_true,
          beq_iff_eq] at hv
        rcases hv.2 with h | h
        · exact absurd h hs
        · rwa [List.getD_eq_getElem?_getD, List.getElem?_eq_getElem hc,
            Option.getD_some] at h
      exact List.set_self_of_getElem hc hcell
    · exact List.set_eq_of_length_le (Nat.le_of_not_lt hc)

/-- The minimising loop hands back exactly the board it was given, as long
as its recursive call does. -/
lemma minimiseLoop_board (child : Board → Int → Int → Int × Board) (sOther : Char)
    (alpha : Int) (hchild : ∀ b a2 b2, (child b a2 b2).2 = b) (hO : sOther ≠ EMPTY) :
    ∀ cells beta b, (minimiseLoop child sOther alpha beta b cells).2 = b := by
  intro cells
  induction cells with
  | nil => intro beta b; rfl
  | cons c rest ihc =>
    intro beta b
    simp only [minimiseLoop]
    split
    · next hv =>
      simp only [hchild, setCell_unmake hO hv]
      split
      · rfl
      · exact ihc _ _
    · exact ihc _ _

/-- The maximising loop hands back exactly the board it was given, as long
as its recursive call does. -/
lemma maximiseLoop_board (child : Board → Int → Int → Int × Board) (sSelf : Char)
    (beta : Int) (hchild : ∀ b a2 b2, (child b a2 b2).2 = b) (hS : sSelf ≠ EMPTY) :
    ∀ cells alpha b, (maximiseLoop child sSelf beta alpha b cells).2 = b := by
  intro cells
  induction cells with
  | nil => intro alpha b; rfl
  | cons c rest ihc =>
    intro alpha b
    simp only [maximiseLoop]
    split
    · next hv =>
      simp only [hchild, setCell_unmake hS hv]
      split
      · rfl
      · exact ihc _ _
    · exact ihc _ _

/-- Both search steps leave the board exactly as they found it: every
speculative `setCell` of a player symbol is undone by a matching `setCell`
of `EMPTY` before returning, at every fuel. -/
theorem search_restores (fuel : Nat) :
    (∀ b sSelf sOther d alpha beta, sSelf ≠ EMPTY → sOther ≠ EMPTY →
      (minimiseF fuel b sSelf sOther d alpha beta).2 = b)
    ∧ (∀ b sSelf sOther d alpha beta, sSelf ≠ EMPTY → sOther ≠ EMPTY →
      (maximiseF fuel b sSelf sOther d alpha beta).2 = b) := by
  induction fuel with
  | zero => exact ⟨fun b sSelf sOther d alpha beta h1 h2 => rfl,
      fun b sSelf sOther d alpha beta h1 h2 => rfl⟩
  | succ f ih =>
    constructor
    · intro b sSelf sOther d alpha beta h1 h2
      rw [minimiseF_succ]
      split
      · rfl
      · split
        · rfl
        · exact minimiseLoop_board _ _ _
            (fun b' a2 b2 => ih.2 b' sSelf sOther (d + 1) a2 b2 h1 h2) h2 _ _ _
    · intro b sSelf sOther d alpha beta h1 h2
      rw [maximiseF_succ]
      split
      · rfl
      · split
        · rfl
        · exact maximiseLoop_board _ _ _
            (fun b' a2 b2 => ih.1 b' sSelf sOther (d + 1) a2 b2 h1 h2) h1 _ _ _

/-! ### The pruned search computes the unpruned value

The classical alpha-beta correctness argument, for the fail-hard variant
implemented here: inside the window the pruned result equals the unpruned
minimax value of the same recursion, and outside the window it fails on
the same side of the bound. -/

/-- The min-fold of the unpruned reference never exceeds its `SCORE_WIN`
start value. -/
lemma pureMinLoop_le (child : Board → Int) (sym : Char) (b : Board) :
    ∀ cells, pureMinLoop child sym b cells ≤ SCORE_WIN := by
  intro cells
  induction cells with
  | nil => simp [pureMinLoop]
  | cons c rest ihc =>
    simp only [pureMinLoop]
    split
    · exact le_trans (min_le_right _ _) ihc
    · exact ihc

/-- The max-fold of the unpruned reference never drops below its
`SCORE_LOSE` start value. -/
lemma pureMaxLoop_ge (child : Board → Int) (sym : Char) (b : Board) :
    ∀ cells, SCORE_LOSE ≤ pureMaxLoop child sym b cells := by
  intro cells
  induction cells with
  | nil => simp [pureMaxLoop]
  | cons c rest ihc =>
    simp only [pureMaxLoop]
    split
    · exact le_trans ihc (le_max_right _ _)
    · exact ihc

/-- The unpruned minimising value is at most `SCORE_WIN` whenever the depth
cannot overflow the loss score. -/
lemma pureMin_le (f : Nat) (b : Board) (sSelf sOther : Char) (d : Nat)
    (hd : d ≤ 255) : pureMin f b sSelf sOther d ≤ SCORE_WIN := by
  match f with
  | 0 => simp [pureMin_zero]
  | g + 1 =>
    rw [pureMin_succ]
    split
    · simp only [SCORE_LOSE, SCORE_WIN]; omega
    · split
      · simp [SCORE_DRAW, SCORE_WIN]
      · exact pureMinLoop_le _ _ _ _

/-- Knuth-Moore relation for the minimising loop: provided the recursive
call is restoring and satisfies the relation, the pruned loop result is
the unpruned fold value clamped into the window. -/
lemma minimiseLoop_km (child : Board → Int → Int → Int × Board)
    (pchild : Board → Int) (sOther : Char)
    (hrest : ∀ b a2 b2, (child b a2 b2).2 = b)
    (hkm : ∀ b alpha beta, SCORE_LOSE ≤ alpha → alpha < beta → beta ≤ SCORE_WIN →
      ((pchild b ≤ alpha → (child b alpha beta).1 ≤ alpha)
        ∧ (alpha < pchild b → pchild b < beta → (child b alpha beta).1 = pchild b)
        ∧ (beta ≤ pchild b → beta ≤ (child b alpha beta).1)))
    (hO : sOther ≠ EMPTY) :
    ∀ cells b alpha beta, SCORE_LOSE ≤ alpha → alpha < beta → beta ≤ SCORE_WIN →
      (minimiseLoop child sOther alpha beta b cells).1
        = max alpha (min beta (pureMinLoop pchild sOther b cells)) := by
  intro cells
  induction cells with
  | nil =>
    intro b alpha beta hal hab hbu
    simp only [minimiseLoop, pureMinLoop, SCORE_WIN] at *
    omega
  | cons c rest ihc =>
    intro b alpha beta hal hab hbu
    simp only [minimiseLoop, pureMinLoop]
    split
    · next hv =>
      have hb2 := hrest (setCell b c sOther) alpha beta
      set s := (child (setCell b c sOther) alpha beta).1 with hs
      set t := pchild (setCell b c sOther) with ht
      have hk := hkm (setCell b c sOther) alpha beta hal hab hbu
      simp only [hb2, setCell_unmake hO hv]
      rcases le_or_lt t alpha with hta | hta
      · have hsa : s ≤ alpha := hk.1 hta
        rw [if_pos (by omega : min beta s ≤ alpha)]
        have hr := pureMinLoop_le pchild sOther b rest
        simp only [SCORE_WIN] at *
        omega
      · rcases lt_or_le t beta with htb | htb
        · have hst : s = t := hk.2.1 hta htb
          rw [if_neg (by omega : ¬ min beta s ≤ alpha)]
          rw [ihc b alpha (min beta s) hal (by omega) (by omega)]
          omega
        · have hsb : beta ≤ s := hk.2.2 htb
          rw [if_neg (by omega : ¬ min beta s ≤ alpha)]
          rw [ihc b alpha (min beta s) hal (by omega) (by omega)]
          omega
    · exact ihc b alpha beta hal hab hbu

/-- Knuth-Moore relation for the maximising loop. -/
lemma maximiseLoop_km (child : Board → Int → Int → Int × Board)
    (pchild : Board → Int) (sSelf : Char)
    (hrest : ∀ b a2 b2, (child b a2 b2).2 = b)
    (hkm : ∀ b alpha beta, SCORE_LOSE ≤ alpha → alpha < beta → beta ≤ SCORE_WIN →
      ((pchild b ≤ alpha → (child b alpha beta).1 ≤ alpha)
        ∧ (alpha < pchild b → pchild b < beta → (child b alpha beta).1 = pchild b)
        ∧ (beta ≤ pchild b → beta ≤ (child b alpha beta).1)))
    (hS : sSelf ≠ EMPTY) :
    ∀ cells b alpha beta, SCORE_LOSE ≤ alpha → alpha < beta → beta ≤ SCORE_WIN →
      (maximiseLoop child sSelf beta alpha b cells).1
        = min beta (max alpha (pureMaxLoop pchild sSelf b cells)) := by
  intro cells
  induction cells with
  | nil =>
    intro b alpha beta hal hab hbu
    simp only [maximiseLoop, pureMaxLoop, SCORE_LOSE] at *
    omega
  | cons c rest ihc =>
    intro b alpha beta hal hab hbu
    simp only [maximiseLoop, pureMaxLoop]
    split
    · next hv =>
      have hb2 := hrest (setCell b c sSelf) alpha beta
      set s := (child (setCell b c sSelf) alpha beta).1 with hs
      set t := pchild (setCell b c sSelf) with ht
      have hk := hkm (setCell b c sSelf) alpha beta hal hab hbu
      simp only [hb2, setCell_unmake hS hv]
      rcases le_or_lt beta t with htb | htb
      · have hsb : beta ≤ s := hk.2.2 htb
        rw [if_pos (by omega : beta ≤ max alpha s)]
        have hr := pureMaxLoop_ge pchild sSelf b rest
        simp only [SCORE_LOSE] at *
        omega
      · rcases lt_or_le alpha t with hta | hta
        · have hst : s = t := hk.2.1 hta htb
          rw [if_neg (by omega : ¬ beta ≤ max alpha s)]
          rw [ihc b (max alpha s) beta (by omega) (by omega) hbu]
          omega
        · have hsa : s ≤ alpha := hk.1 hta
          rw [if_neg (by omega : ¬ beta ≤ max alpha s)]
          rw [ihc b (max alpha s) beta (by omega) (by omega) hbu]
          omega
    · exact ihc b alpha beta hal hab hbu

/-- Knuth-Moore relation between the pruned and the unpruned recursion:
with a non-trivial window inside the score range, a pruned result at or
below `alpha` certifies the unpruned value is at or below `alpha`, a
result strictly inside the window is the exact unpruned value, and a
pruned result at or above `beta` certifies the value is at or above
`beta`.  Both directions of the search are proved together by induction
on the fuel. -/
theorem alphaBeta_km (fuel : Nat) :
    (∀ b sSelf sOther d alpha beta, sSelf ≠ EMPTY → sOther ≠ EMPTY →
      SCORE_LOSE ≤ alpha → alpha < beta → beta ≤ SCORE_WIN →
      ((pureMin fuel b sSelf sOther d ≤ alpha →
          (minimiseF fuel b sSelf sOther d alpha beta).1 ≤ alpha)
        ∧ (alpha < pureMin fuel b sSelf sOther d →
            pureMin fuel b sSelf sOther d < beta →
            (minimiseF fuel b sSelf sOther d alpha beta).1
              = pureMin fuel b sSelf sOther d)
        ∧ (beta ≤ pureMin fuel b sSelf sOther d →
            beta ≤ (minimiseF fuel b sSelf sOther d alpha beta).1)))
    ∧ (∀ b sSelf sOther d alpha beta, sSelf ≠ EMPTY → sOther ≠ EMPTY →
      SCORE_LOSE ≤ alpha → alpha < beta → beta ≤ SCORE_WIN →
      ((pureMax fuel b sSelf sOther d ≤ alpha →
          (maximiseF fuel b sSelf sOther d alpha beta).1 ≤ alpha)
        ∧ (alpha < pureMax fuel b sSelf sOther d →
            pureMax fuel b sSelf sOther d < beta →
            (maximiseF fuel b sSelf sOther d alpha beta).1
              = pureMax fuel b sSelf sOther d)
        ∧ (beta ≤ pureMax fuel b sSelf sOther d →
            beta ≤ (maximiseF fuel b sSelf sOther d alpha beta).1))) := by
  induction fuel with
  | zero =>
    constructor <;>
      (intro b sSelf sOther d alpha beta h1 h2 hal hab hbu
       simp only [minimiseF_zero, maximiseF_zero, pureMin_zero, pureMax_zero,
         SCORE_LOSE, SCORE_WIN] at *
       refine ⟨?_, ?_, ?_⟩ <;> omega)
  | succ f ih =>
    constructor
    · intro b sSelf sOther d alpha beta h1 h2 hal hab hbu
      rw [minimiseF_succ, pureMin_succ]
      by_cases hw : isWin b sOther = true
      · simp only [hw, if_true]
        exact ⟨id, fun _ _ => trivial, id⟩
      · simp only [hw, if_false, Bool.false_eq_true]
        by_cases hdw : isDraw b = true
        · simp only [hdw, if_true]
          exact ⟨id, fun _ _ => trivial, id⟩
        · simp only [hdw, if_false, Bool.false_eq_true]
          rw [minimiseLoop_km
            (fun b2 a2 b3 => maximiseF f b2 sSelf sOther (d + 1) a2 b3)
            (fun b2 => pureMax f b2 sSelf sOther (d + 1)) sOther
            (fun b' a2 b2 => (search_restores f).2 b' sSelf sOther (d + 1) a2 b2 h1 h2)
            (fun b' a2 b2 ha hb hc => ih.2 b' sSelf sOther (d + 1) a2 b2 h1 h2 ha hb hc)
            h2 _ b alpha beta hal hab hbu]
          refine ⟨?_, ?_, ?_⟩ <;> (intros; omega)
    · intro b sSelf sOther d alpha beta h1 h2 hal hab hbu
      rw [maximiseF_succ, pureMax_succ]
      by_cases hw : isWin b sSelf = true
      · simp only [hw, if_true]
        exact ⟨id, fun _ _ => trivial, id⟩
      · simp only [hw, if_false, Bool.false_eq_true]
        by_cases hdw : isDraw b = true
        · simp only [hdw, if_true]
          exact ⟨id, fun _ _ => trivial, id⟩
        · simp only [hdw, if_false, Bool.false_eq_true]
          rw [maximiseLoop_km
            (fun b2 a2 b3 => minimiseF f b2 sSelf sOther (d + 1) a2 b3)
            (fun b2 => pureMin f b2 sSelf sOther (d + 1)) sSelf
            (fun b' a2 b2 => (search_restores f).1 b' sSelf sOther (d + 1) a2 b2 h1 h2)
            (fun b' a2 b2 ha hb hc => ih.1 b' sSelf sOther (d + 1) a2 b2 h1 h2 ha hb hc)
            h1 _ b alpha beta hal hab hbu]
          refine ⟨?_, ?_, ?_⟩ <;> (intros; omega)

/-- The minimising loop never returns above `SCORE_WIN` when its window is
below it. -/
lemma minimiseLoop_le (child : Board → Int → Int → Int × Board) (sOther : Char)
    (alpha : Int) (hau : alpha ≤ SCORE_WIN) :
    ∀ cells beta b, beta ≤ SCORE_WIN →
      (minimiseLoop child sOther alpha beta b cells).1 ≤ SCORE_WIN := by
  intro cells
  induction cells with
  | nil => intro beta b hbu; simpa [minimiseLoop]
  | cons c rest ihc =>
    intro beta b hbu
    simp only [minimiseLoop]
    split
    · split
      · simpa
      · exact ihc _ _ (by omega)
    · exact ihc _ _ hbu

/-- The maximising loop never returns above `SCORE_WIN` when its window is
below it and its recursive call is likewise bounded. -/
lemma maximiseLoop_le (child : Board → Int → Int → Int × Board) (sSelf : Char)
    (beta : Int) (hbu : beta ≤ SCORE_WIN)
    (hchild : ∀ b a2 b2, a2 ≤ SCORE_WIN → b2 ≤ SCORE_WIN →
      (child b a2 b2).1 ≤ SCORE_WIN) :
    ∀ cells alpha b, alpha ≤ SCORE_WIN →
      (maximiseLoop child sSelf beta alpha b cells).1 ≤ SCORE_WIN := by
  intro cells
  induction cells with
  | nil => intro alpha b hau; simpa [maximiseLoop]
  | cons c rest ihc =>
    intro alpha b hau
    simp only [maximiseLoop]
    split
    · next hv =>
      have hs := hchild (setCell b c sSelf) alpha beta hau hbu
      split
      · simpa
      · exact ihc _ _ (by omega)
    · exact ihc _ _ hau

/-- With a window below `SCORE_WIN` and enough depth headroom, no search
result exceeds `SCORE_WIN` (needed at the top level when `alpha` has
already reached `SCORE_WIN`). -/
theorem ab_le_win (fuel : Nat) :
    (∀ b sSelf sOther d alpha beta, alpha ≤ SCORE_WIN → beta ≤ SCORE_WIN →
      d + fuel ≤ 256 → (minimiseF fuel b sSelf sOther d alpha beta).1 ≤ SCORE_WIN)
    ∧ (∀ b sSelf sOther d alpha beta, alpha ≤ SCORE_WIN → beta ≤ SCORE_WIN →
      d + fuel ≤ 256 → (maximiseF fuel b sSelf sOther d alpha beta).1 ≤ SCORE_WIN) := by
  induction fuel with
  | zero =>
    constructor <;>
      (intro b sSelf sOther d alpha beta hau hbu hd
       simpa [minimiseF_zero, maximiseF_zero])
  | succ f ih =>
    constructor
    · intro b sSelf sOther d alpha beta hau hbu hd
      rw [minimiseF_succ]
      split
      · simp only [SCORE_LOSE, SCORE_WIN]; omega
      · split
        · simp [SCORE_DRAW, SCORE_WIN]
        · exact minimiseLoop_le _ _ _ hau _ _ _ hbu
    · intro b sSelf sOther d alpha beta hau hbu hd
      rw [maximiseF_succ]
      split
      · simp only [SCORE_WIN]; omega
      · split
        · simp [SCORE_DRAW, SCORE_WIN]
        · exact maximiseLoop_le _ _ _ hbu
            (fun b' a2 b2 ha hb => ih.1 b' sSelf sOther (d + 1) a2 b2 ha hb (by omega))
            _ _ _ hau

/-- The candidate loop of `getBestMove` also restores the board. -/
theorem getBestMoveGo_board (sSelf sOther : Char) (h1 : sSelf ≠ EMPTY)
    (h2 : sOther ≠ EMPTY) :
    ∀ cells b alpha best, (getBestMoveGo b sSelf sOther alpha best cells).board = b := by
  intro cells
  induction cells with
  | nil => intro b alpha best; rfl
  | cons c rest ihc =>
    intro b alpha best
    simp only [getBestMoveGo]
    split
    · next hv =>
      have hp : (minimiseF (getSize b * getSize b) (setCell b c sSelf) sSelf sOther 1
          alpha SCORE_WIN).2 = setCell b c sSelf :=
        (search_restores _).1 _ _ _ _ _ _ h1 h2
      simp only [hp, setCell_unmake h1 hv]
      split
      · exact ihc _ _ _
      · exact ihc _ _ _
    · exact ihc _ _ _

/-- The top-level candidate loop with pruning tracks exactly the same
running best score and best cell as the unpruned strict-improvement fold
over the `pureMin` values. -/
theorem getBestMoveGo_eq_pure (b : Board) (sSelf sOther : Char)
    (h1 : sSelf ≠ EMPTY) (h2 : sOther ≠ EMPTY)
    (hsize : getSize b * getSize b ≤ 255) :
    ∀ cells alpha best, SCORE_LOSE ≤ alpha → alpha ≤ SCORE_WIN →
      (getBestMoveGo b sSelf sOther alpha best cells).alpha
          = (pureBestGo b sSelf sOther alpha best cells).1
        ∧ (getBestMoveGo b sSelf sOther alpha best cells).bestMove
          = (pureBestGo b sSelf sOther alpha best cells).2 := by
  intro cells
  induction cells with
  | nil => intro alpha best hal hau; exact ⟨rfl, rfl⟩
  | cons c rest ihc =>
    intro alpha best hal hau
    simp only [getBestMoveGo, pureBestGo]
    split
    · next hv =>
      have hrest : (minimiseF (getSize b * getSize b) (setCell b c sSelf) sSelf sOther 1
          alpha SCORE_WIN).2 = setCell b c sSelf :=
        (search_restores _).1 _ _ _ _ _ _ h1 h2
      set s := (minimiseF (getSize b * getSize b) (setCell b c sSelf) sSelf sOther 1
        alpha SCORE_WIN).1 with hsdef
      set v := pureMin (getSize b * getSize b) (setCell b c sSelf) sSelf sOther 1
        with hvdef
      have hv127 : v ≤ SCORE_WIN := pureMin_le _ _ _ _ _ (by omega)
      simp only [hrest, setCell_unmake h1 hv]
      rcases lt_or_le alpha SCORE_WIN with haw | haw
      · have hkm := (alphaBeta_km (getSize b * getSize b)).1 (setCell b c sSelf)
          sSelf sOther 1 alpha SCORE_WIN h1 h2 hal haw le_rfl
        rcases le_or_lt v alpha with hva | hva
        · have hsa : s ≤ alpha := hkm.1 hva
          rw [if_neg (by omega : ¬ alpha < s), if_neg (by omega : ¬ alpha < v)]
          exact ihc alpha best hal hau
        · rcases lt_or_le v SCORE_WIN with hvw | hvw
          · have hsv : s = v := hkm.2.1 hva hvw
            rw [if_pos (by omega : alpha < s), if_pos hva, hsv]
            exact ihc v (some c) (by omega) (by omega)
          · have hveq : v = SCORE_WIN := le_antisymm hv127 hvw
            have hsw : SCORE_WIN ≤ s := hkm.2.2 hvw
            have hsu : s ≤ SCORE_WIN := (ab_le_win _).1 _ _ _ _ _ _ (by omega) le_rfl
              (by omega)
            have hsv : s = v := by omega
            rw [if_pos (by omega : alpha < s), if_pos hva, hsv]
            exact ihc v (some c) (by omega) (by omega)
      · have hsu : s ≤ SCORE_WIN := (ab_le_win _).1 _ _ _ _ _ _ hau le_rfl (by omega)
        rw [if_neg (by omega : ¬ alpha < s), if_neg (by omega : ¬ alpha < v)]
        exact ihc alpha best hal hau
    · exact ihc alpha best hal hau

/-- The symbol derived for the opponent is always a player symbol. -/
lemma other_ne_empty (sSelf : Char) :
    (if sSelf == NOUGHT then CROSS else NOUGHT) ≠ EMPTY := by
  split <;> decide

/-- C2 (amended): `getBestMove` with alpha-beta pruning selects exactly
the cell the exhaustive unpruned minimax over the code's own recursion
(`pureMin`/`pureMax`, with the code's terminal tests: opponent win and
draw in the minimising step, self win and draw in the maximising step)
selects: the lowest-index valid cell of maximal recursively computed
score, or no cell at all when no valid move scores above `SCORE_LOSE`.
The equivalence does not hold against the specification's scoring
recursion (`specBestMove`), see the counterexample. -/
theorem getBestMove_eq_pureBestMove (b : Board) (sSelf : Char)
    (hplayer : sSelf = NOUGHT ∨ sSelf = CROSS) (hsize : b.size ≤ 15) :
    (getBestMove b sSelf).bestMove = (pureBestMove b sSelf).2 := by
  have h1 : sSelf ≠ EMPTY := by rcases hplayer with h | h <;> (subst h; decide)
  have hsz : getSize b * getSize b ≤ 255 := by
    have : getSize b * getSize b ≤ 15 * 15 := Nat.mul_le_mul hsize hsize
    omega
  exact (getBestMoveGo_eq_pure b sSelf _ h1 (other_ne_empty sSelf) hsz _ _ _
    le_rfl (by simp [SCORE_LOSE, SCORE_WIN])).2

/-! ### The claims -/

/-- C1: `initBoard` is claimed to return a board of `size * size` cells.
The code allocates only `size` cells (`board.c` line 52:
`malloc(sizeof(char) * size)`), so for size 3 the created board has 3
cells rather than 9; `resetBoard` then writes 9 cells into the 3-cell
allocation (a heap overflow in the C program). -/
theorem initBoard_cell_count_bug :
    (initBoard 3).cells.length = 3 ∧ (initBoard 3).cells.length ≠ 3 * 3 := by
  decide

/-- C2 witness: the amended equivalence instantiated on an empty 2x2
board for `NOUGHT`. -/
theorem getBestMove_eq_pureBestMove_witness :
    ((NOUGHT = NOUGHT ∨ NOUGHT = CROSS) ∧ (Board.mk 2 [' ', ' ', ' ', ' ']).size ≤ 15)
      ∧ (getBestMove ⟨2, [' ', ' ', ' ', ' ']⟩ NOUGHT).bestMove
        = (pureBestMove ⟨2, [' ', ' ', ' ', ' ']⟩ NOUGHT).2 :=
  ⟨⟨Or.inl rfl, by decide⟩,
    getBestMove_eq_pureBestMove ⟨2, [' ', ' ', ' ', ' ']⟩ NOUGHT (Or.inl rfl) (by decide)⟩

/-- C2 counterexample: on `boardDoubleThreat` with `CROSS` to move, the
pruned search returns cell 7 while the exhaustive unpruned minimax with
the specification's scoring (all three terminal conditions checked at
each step) returns cell 5, so `getBestMove` does not return the same cell
as the specification's exhaustive reference. -/
theorem getBestMove_ne_specBestMove :
    (getBestMove boardDoubleThreat CROSS).bestMove = some 7
      ∧ specBestMove boardDoubleThreat CROSS = some 5 := by
  constructor
  · decide
  · decide

/-- C3: a call to `getBestMove` leaves the board cell-for-cell unchanged:
every speculative `setCell` of a symbol is undone by a matching `setCell`
of `EMPTY` before the call returns. -/
theorem getBestMove_preserves_board (b : Board) (sSelf : Char)
    (hplayer : sSelf = NOUGHT ∨ sSelf = CROSS)
    (hempty : ∃ c, c < b.size * b.size ∧ getCellD b c = EMPTY) :
    (getBestMove b sSelf).board = b := by
  have h1 : sSelf ≠ EMPTY := by rcases hplayer with h | h <;> (subst h; decide)
  exact getBestMoveGo_board sSelf _ h1 (other_ne_empty sSelf) _ b _ _

/-- C3 witness: the frame property instantiated on a 2x2 board with one
`NOUGHT` placed and `CROSS` to move. -/
theorem getBestMove_preserves_board_witness :
    ((CROSS = NOUGHT ∨ CROSS = CROSS)
        ∧ (∃ c, c < (Board.mk 2 ['O', ' ', ' ', ' ']).size
            * (Board.mk 2 ['O', ' ', ' ', ' ']).size
          ∧ getCellD ⟨2, ['O', ' ', ' ', ' ']⟩ c = EMPTY))
      ∧ (getBestMove ⟨2, ['O', ' ', ' ', ' ']⟩ CROSS).board
        = ⟨2, ['O', ' ', ' ', ' ']⟩ :=
  ⟨⟨Or.inr rfl, ⟨1, by decide, rfl⟩⟩,
    getBestMove_preserves_board ⟨2, ['O', ' ', ' ', ' ']⟩ CROSS (Or.inr rfl)
      ⟨1, by decide, rfl⟩⟩

/-- C4 counterexample: `boardSelfWinRow` is a terminal position in which
`symbolSelf` (`CROSS`) has won, reached by `minimise` at depth 1, yet its
score is not `SCORE_WIN - 1 = 126`: `minimise` does not test the self win,
expands the position, and the children's `maximise` calls score it one
ply later, giving 125. -/
theorem minimise_selfwin_not_win_minus_depth :
    isWin boardSelfWinRow CROSS = true
      ∧ (minimiseF 9 boardSelfWinRow CROSS NOUGHT 1 SCORE_LOSE SCORE_WIN).1 = 125
      ∧ (minimiseF 9 boardSelfWinRow CROSS NOUGHT 1 SCORE_LOSE SCORE_WIN).1
        ≠ SCORE_WIN - 1 := by
  refine ⟨by decide, by decide, by decide⟩

/-- C4 (amended): the terminal positions each step actually tests are
scored exactly as the specification states - an opponent win found by
`minimise` scores `SCORE_LOSE + depth`, a self win found by `maximise`
scores `SCORE_WIN - depth`, a drawn full position scores `SCORE_DRAW` -
with the depth convention that the candidate move counts as depth 1 in
the immediate recursive call (`getBestMove` calls `minimise` with
depth 1).  A self win reached at a `minimise` step (or an opponent win at
a `maximise` step) is not tested and hence not scored this way, see the
counterexample. -/
theorem terminal_scores (f : Nat) (b : Board) (sSelf sOther : Char) (d : Nat)
    (alpha beta : Int) :
    (isWin b sOther = true →
      (minimiseF (f + 1) b sSelf sOther d alpha beta).1 = SCORE_LOSE + d)
    ∧ (isWin b sOther = false → isDraw b = true →
      (minimiseF (f + 1) b sSelf sOther d alpha beta).1 = SCORE_DRAW)
    ∧ (isWin b sSelf = true →
      (maximiseF (f + 1) b sSelf sOther d alpha beta).1 = SCORE_WIN - d)
    ∧ (isWin b sSelf = false → isDraw b = true →
      (maximiseF (f + 1) b sSelf sOther d alpha beta).1 = SCORE_DRAW) := by
  refine ⟨?_, ?_, ?_, ?_⟩
  · intro hw; rw [minimiseF_succ]; simp [hw]
  · intro hw hd; rw [minimiseF_succ]; simp [hw, hd]
  · intro hw; rw [maximiseF_succ]; simp [hw]
  · intro hw hd; rw [maximiseF_succ]; simp [hw, hd]

/-- C4 witness: the three scoring rules instantiated - an opponent
(`NOUGHT`) win scored by `minimise` at depth 1, a self (`CROSS`) win
scored by `maximise` at depth 2, and a drawn board scored by both. -/
theorem terminal_scores_witness :
    (minimiseF 1 boardNoughtWin CROSS NOUGHT 1 SCORE_LOSE SCORE_WIN).1
        = SCORE_LOSE + 1
      ∧ (maximiseF 1 boardSelfWinRow CROSS NOUGHT 2 SCORE_LOSE SCORE_WIN).1
        = SCORE_WIN - 2
      ∧ (minimiseF 1 boardFullDraw CROSS NOUGHT 3 SCORE_LOSE SCORE_WIN).1
        = SCORE_DRAW
      ∧ (maximiseF 1 boardFullDraw CROSS NOUGHT 3 SCORE_LOSE SCORE_WIN).1
        = SCORE_DRAW :=
  ⟨(terminal_scores 0 boardNoughtWin CROSS NOUGHT 1 SCORE_LOSE SCORE_WIN).1
      (by decide),
    (terminal_scores 0 boardSelfWinRow CROSS NOUGHT 2 SCORE_LOSE SCORE_WIN).2.2.1
      (by decide),
    (terminal_scores 0 boardFullDraw CROSS NOUGHT 3 SCORE_LOSE SCORE_WIN).2.1
      (by decide) (by decide),
    (terminal_scores 0 boardFullDraw CROSS NOUGHT 3 SCORE_LOSE SCORE_WIN).2.2.2
      (by decide) (by decide)⟩

/-- C5 counterexample: `boardSelfWinCol` is a terminal position
(`CROSS`, the `symbolSelf` of the search, has won), yet `minimise`
expands it: its result changes when the remaining recursion budget
changes, which is impossible for a position returned from the terminal
checks.  The self-win condition is not among the conditions `minimise`
tests before enumerating moves. -/
theorem minimise_expands_terminal :
    isWin boardSelfWinCol CROSS = true
      ∧ (minimiseF 1 boardSelfWinCol CROSS NOUGHT 1 SCORE_LOSE SCORE_WIN).1
        ≠ (minimiseF 9 boardSelfWinCol CROSS NOUGHT 1 SCORE_LOSE SCORE_WIN).1 := by
  refine ⟨by decide, by decide⟩

/-- C5 (amended): each step returns before enumerating any move whenever
one of the terminal conditions it actually checks holds - opponent win or
draw for `minimise`, self win or draw for `maximise`: the result is then
independent of the remaining recursion budget.  The unchecked condition
(self win at `minimise`, opponent win at `maximise`) does not stop the
expansion, see the counterexample. -/
theorem terminal_checked_not_expanded (f g : Nat) (b : Board)
    (sSelf sOther : Char) (d : Nat) (alpha beta : Int) :
    ((isWin b sOther = true ∨ isDraw b = true) →
      minimiseF (f + 1) b sSelf sOther d alpha beta
        = minimiseF (g + 1) b sSelf sOther d alpha beta)
    ∧ ((isWin b sSelf = true ∨ isDraw b = true) →
      maximiseF (f + 1) b sSelf sOther d alpha beta
        = maximiseF (g + 1) b sSelf sOther d alpha beta) := by
  constructor
  · intro h
    rw [minimiseF_succ, minimiseF_succ]
    rcases h with h | h
    · simp [h]
    · cases hw : isWin b sOther
      · simp [hw, h]
      · simp [hw]
  · intro h
    rw [maximiseF_succ, maximiseF_succ]
    rcases h with h | h
    · simp [h]
    · cases hw : isWin b sSelf
      · simp [hw, h]
      · simp [hw]

/-- C5 witness: on a board where the opponent (`NOUGHT`) has won, the
`minimise` result is the same for recursion budgets 1 and 9. -/
theorem terminal_checked_not_expanded_witness :
    minimiseF 1 boardNoughtWin CROSS NOUGHT 1 SCORE_LOSE SCORE_WIN
      = minimiseF 9 boardNoughtWin CROSS NOUGHT 1 SCORE_LOSE SCORE_WIN :=
  (terminal_checked_not_expanded 0 8 boardNoughtWin CROSS NOUGHT 1
    SCORE_LOSE SCORE_WIN).1 (Or.inl (by decide))

/-- C6: `isWin` holds exactly when some full row (indices
`r*size .. r*size+size-1`), some full column (indices `c, c+size, ...`),
the forward diagonal (indices `i*size+i`) or the backward diagonal
(indices `(size-1-i)*size+i`) consists entirely of the symbol; no other
line shape counts, for any board size. -/
theorem isWin_iff (b : Board) (symbol : Char) :
    isWin b symbol = true ↔
      ((∃ r < b.size, ∀ i < b.size, getCellD b (r * b.size + i) = symbol)
        ∨ (∃ c < b.size, ∀ i < b.size, getCellD b (c + i * b.size) = symbol)
        ∨ (∀ i < b.size, getCellD b (i * b.size + i) = symbol)
        ∨ (∀ i < b.size, getCellD b ((b.size - 1 - i) * b.size + i) = symbol)) := by
  have hrow : ∀ r i : Nat, b.size * r + i = r * b.size + i := fun r i => by ring
  have hcol : ∀ c i : Nat, c + b.size * i = c + i * b.size := fun c i => by ring
  have hfwd : ∀ i : Nat, b.size * i + i = i * b.size + i := fun i => by ring
  have hbwd : ∀ i : Nat, b.size * (b.size - 1 - i) + i = (b.size - 1 - i) * b.size + i :=
    fun i => by ring
  simp only [isWin, isWinRow, isWinCol, isWinForwardDiag, isWinBackwardDiag,
    Bool.or_eq_true, List.any_eq_true, List.all_eq_true, List.mem_range,
    beq_iff_eq, hrow, hcol, hfwd, hbwd]
  constructor
  · rintro ((hA | hB) | ⟨i, hi, hri | hci⟩)
    · exact Or.inr (Or.inr (Or.inl hA))
    · exact Or.inr (Or.inr (Or.inr hB))
    · exact Or.inl ⟨i, hi, hri⟩
    · exact Or.inr (Or.inl ⟨i, hi, hci⟩)
  · rintro (⟨r, hr, hrw⟩ | ⟨c, hc, hcw⟩ | hA | hB)
    · exact Or.inr ⟨r, hr, Or.inl hrw⟩
    · exact Or.inr ⟨c, hc, Or.inr hcw⟩
    · exact Or.inl (Or.inl hA)
    · exact Or.inl (Or.inr hB)

/-- C7: `isDraw` holds exactly when neither symbol has a win and no cell
is `EMPTY`; in particular a full board with an existing win is not a draw
(the win test comes first). -/
theorem isDraw_iff (b : Board) :
    isDraw b = true ↔
      (isWin b NOUGHT = false ∧ isWin b CROSS = false
        ∧ ∀ c < b.size * b.size, getCellD b c ≠ EMPTY) := by
  cases hN : isWin b NOUGHT <;> cases hX : isWin b CROSS <;>
    simp [isDraw, hN, hX, List.all_eq_true, List.mem_range]

/-- C8: `isValidMove` holds exactly when the cell index is in range (the
lower bound `0 ≤ cell` is automatic for the unsigned index) and either
the symbol is `EMPTY` or the cell currently holds `EMPTY`. -/
theorem isValidMove_iff (b : Board) (cell : Nat) (symbol : Char) :
    isValidMove b cell symbol = true ↔
      (cell < b.size * b.size ∧ (symbol = EMPTY ∨ getCellD b cell = EMPTY)) := by
  simp [isValidMove]

/-- C9 counterexample: for size 16 the shared loop shape
`for (uint8_t cell = 0; cell < size * size; cell += 1)` never terminates:
the 8-bit counter wraps at 256 and never reaches the bound
`16 * 16 = 256`. -/
theorem cellLoop_diverges_16 : ¬ cellLoopTerminates 16 := by
  rintro ⟨n, h⟩
  exact h (by omega)

/-- C9 (amended): the cell-enumeration loops terminate for every size
from 1 to 15 (the sizes for which `size * size` still fits the 8-bit
counter), not for every size up to 255 as claimed. -/
theorem cellLoop_terminates_le_15 (size : Nat) (h1 : 1 ≤ size)
    (h15 : size ≤ 15) : cellLoopTerminates size := by
  refine ⟨255, ?_⟩
  have : size * size ≤ 15 * 15 := Nat.mul_le_mul h15 h15
  omega

/-- C9 witness: the bundled 3x3 instance terminates. -/
theorem cellLoop_terminates_le_15_witness :
    (1 ≤ 3 ∧ 3 ≤ 15) ∧ cellLoopTerminates 3 :=
  ⟨⟨by decide, by decide⟩, cellLoop_terminates_le_15 3 (by decide) (by decide)⟩

/-- C10: on `boardAssertFail` (two empty cells, reachable by legal play,
`CROSS` to move) every candidate move is scored `SCORE_LOSE` by
`minimise`, because in each line the opponent wins by filling the last
cell and neither step detects a win that occurred on a board-filling
move; the top-level `alpha` therefore never leaves `SCORE_LOSE`, the C
assertion `assert(alpha != SCORE_LOSE)` fails, and `bestMove` is returned
uninitialised (modelled as `none`). -/
theorem getBestMove_assert_fails :
    getCellD boardAssertFail 0 = EMPTY
      ∧ (getBestMove boardAssertFail CROSS).alpha = SCORE_LOSE
      ∧ (getBestMove boardAssertFail CROSS).bestMove = none := by
  refine ⟨by decide, by decide, by decide⟩

end NoughtsCrosses
